import Mathlib

/-!
Verification of the phase/amplitude/omega post-processing core
(`phase_amp_omega.py`): the finite-difference derivative engine
`compute_derivative` and the phase unwrapper `process_wave_data`.

Sequences are embedded as functions `ℕ → ℝ` together with an explicit
length `n`; floating-point arithmetic is modelled by real arithmetic.
-/

namespace PhaseAmpOmega

/-- Embedding of `compute_derivative(time, data)`:
`dt = time[1] - time[0]`; interior points `1 .. n-2` get the centered
difference `(data[i+1] - data[i-1]) / (2*dt)`; index `0` gets the forward
difference `(data[1] - data[0]) / dt`; index `n-1` gets the backward
difference `(data[n-1] - data[n-2]) / dt`.  All three stencils divide by
the single global spacing `dt` computed from the first two time points. -/
noncomputable def compute_derivative (n : ℕ) (time data : ℕ → ℝ) : ℕ → ℝ :=
  fun i =>
    let dt := time 1 - time 0
    if i = 0 then (data 1 - data 0) / dt
    else if i = n - 1 then (data (n - 1) - data (n - 2)) / dt
    else (data (i + 1) - data (i - 1)) / (2 * dt)

/-- The §3 invariant on the time grid: strictly increasing on its first
`n` entries. -/
def StrictlyIncreasing (n : ℕ) (t : ℕ → ℝ) : Prop :=
  ∀ i, i + 1 < n → t i < t (i + 1)

/-- Non-uniform example grid 0, 1, 3. -/
noncomputable def exT : ℕ → ℝ := fun i => if i = 0 then 0 else if i = 1 then 1 else 3

/-- Example data 0, 0, 2 on the grid `exT`. -/
noncomputable def exD : ℕ → ℝ := fun i => if i ≤ 1 then 0 else 2

lemma exT_mono : StrictlyIncreasing 3 exT := by
  intro i hi
  have hi2 : i < 2 := by omega
  interval_cases i <;> norm_num [exT]

lemma exT0 : exT 0 = 0 := by norm_num [exT]
lemma exT1 : exT 1 = 1 := by norm_num [exT]
lemma exT2 : exT 2 = 3 := by norm_num [exT]
lemma exD0 : exD 0 = 0 := by norm_num [exD]
lemma exD1 : exD 1 = 0 := by norm_num [exD]
lemma exD2 : exD 2 = 2 := by norm_num [exD]

/-- Claim C1 fails on the code: on the strictly increasing non-uniform
grid `T = [0,1,3]` with data `D = [0,0,2]`, the interior value returned
by `compute_derivative` is `(D[2]-D[0])/(2*(T[1]-T[0])) = 1`, not the
claimed `(D[2]-D[0])/(T[2]-T[0]) = 2/3`. -/
theorem interior_stencil_local_span_counterexample :
    StrictlyIncreasing 3 exT ∧
      compute_derivative 3 exT exD 1 ≠ (exD 2 - exD 0) / (exT 2 - exT 0) := by
  refine ⟨exT_mono, ?_⟩
  norm_num [compute_derivative, exT0, exT1, exT2, exD0, exD2]

/-- Claim C1 as amended: for every strictly increasing grid of length
`n ≥ 3` and every interior index `1 ≤ i ≤ n-2`, `compute_derivative`
returns the centered difference `(D[i+1]-D[i-1])` divided by
`2*(T[1]-T[0])`, twice the single global spacing taken from the first
two grid points. -/
theorem interior_stencil_global_dt (n : ℕ) (T D : ℕ → ℝ) (i : ℕ)
    (hn : 3 ≤ n) (hmono : StrictlyIncreasing n T)
    (h1 : 1 ≤ i) (h2 : i ≤ n - 2) :
    compute_derivative n T D i = (D (i + 1) - D (i - 1)) / (2 * (T 1 - T 0)) := by
  have hi0 : i ≠ 0 := by omega
  have hin : i ≠ n - 1 := by omega
  simp [compute_derivative, hi0, hin]

/-- Witness for the amended C1 at the concrete grid `exT`, data `exD`,
interior index 1. -/
theorem interior_stencil_global_dt_witness :
    StrictlyIncreasing 3 exT ∧
      compute_derivative 3 exT exD 1 = (exD 2 - exD 0) / (2 * (exT 1 - exT 0)) :=
  ⟨exT_mono, interior_stencil_global_dt 3 exT exD 1 (by norm_num) exT_mono
    (by norm_num) (by norm_num)⟩

/-- Claim C2 fails on the code: on the strictly increasing non-uniform
grid `T = [0,1,3]` with the linear data `D[i] = 1*T[i] + 0`, the interior
derivative returned is `(T[2]-T[0])/(2*(T[1]-T[0])) = 3/2`, not the
slope 1. -/
theorem linear_exactness_counterexample :
    StrictlyIncreasing 3 exT ∧ (∀ i, i < 3 → exT i = 1 * exT i + 0) ∧
      compute_derivative 3 exT exT 1 ≠ 1 := by
  refine ⟨exT_mono, fun i _ => by ring, ?_⟩
  norm_num [compute_derivative, exT0, exT1, exT2]

/-- Claim C2 as amended: on a UNIFORM strictly increasing grid of length
`n ≥ 3` (every consecutive spacing equals `T[1]-T[0]`), linear data
`D[i] = m*T[i] + k` yields `compute_derivative = m` at every index,
boundary and interior alike. -/
theorem linear_exactness_uniform (n : ℕ) (T D : ℕ → ℝ) (m k : ℝ)
    (hn : 3 ≤ n) (hmono : StrictlyIncreasing n T)
    (huni : ∀ i, i + 1 < n → T (i + 1) - T i = T 1 - T 0)
    (hD : ∀ i, i < n → D i = m * T i + k) :
    ∀ i, i < n → compute_derivative n T D i = m := by
  intro i hi
  have hdt : 0 < T 1 - T 0 := by
    have := hmono 0 (by omega)
    simpa using sub_pos.mpr this
  have hdt' : T 1 - T 0 ≠ 0 := ne_of_gt hdt
  rcases eq_or_ne i 0 with h0 | h0
  · subst h0
    have e1 : D 1 = m * T 1 + k := hD 1 (by omega)
    have e0 : D 0 = m * T 0 + k := hD 0 (by omega)
    simp only [compute_derivative, if_pos rfl]
    rw [e1, e0]
    field_simp
    ring
  · rcases eq_or_ne i (n - 1) with h1 | h1
    · subst h1
      have e1 : D (n - 1) = m * T (n - 1) + k := hD (n - 1) (by omega)
      have e0 : D (n - 2) = m * T (n - 2) + k := hD (n - 2) (by omega)
      have hs : T (n - 2 + 1) - T (n - 2) = T 1 - T 0 := huni (n - 2) (by omega)
      have hidx : n - 2 + 1 = n - 1 := by omega
      rw [hidx] at hs
      simp only [compute_derivative, if_neg h0, if_pos rfl]
      rw [e1, e0, show m * T (n-1) + k - (m * T (n-2) + k) = m * (T (n-1) - T (n-2)) by ring,
        hs]
      field_simp
    · have hilt : i < n - 1 := by omega
      have e1 : D (i + 1) = m * T (i + 1) + k := hD (i + 1) (by omega)
      have e0 : D (i - 1) = m * T (i - 1) + k := hD (i - 1) (by omega)
      have hs1 : T (i + 1) - T i = T 1 - T 0 := huni i (by omega)
      have hs0 : T (i - 1 + 1) - T (i - 1) = T 1 - T 0 := huni (i - 1) (by omega)
      have hidx : i - 1 + 1 = i := by omega
      rw [hidx] at hs0
      simp only [compute_derivative, if_neg h0, if_neg h1]
      rw [e1, e0, show m * T (i+1) + k - (m * T (i-1) + k) = m * (T (i+1) - T (i-1)) by ring,
        show T (i+1) - T (i-1) = (T (i+1) - T i) + (T i - T (i-1)) by ring, hs1, hs0,
        show T 1 - T 0 + (T 1 - T 0) = 2 * (T 1 - T 0) by ring]
      exact mul_div_cancel_right₀ m (by positivity)

/-- Uniform example grid 0, 1, 2, ... -/
noncomputable def exU : ℕ → ℝ := fun i => (i : ℝ)

/-- Linear example data 2*t + 1 on the grid `exU`. -/
noncomputable def exL : ℕ → ℝ := fun i => 2 * exU i + 1

lemma exU_mono : StrictlyIncreasing 3 exU := by
  intro i hi
  simp only [exU]
  exact_mod_cast Nat.lt_succ_self i

lemma exU_uniform : ∀ i, i + 1 < 3 → exU (i + 1) - exU i = exU 1 - exU 0 := by
  intro i hi
  simp only [exU]
  push_cast
  ring

/-- Witness for the amended C2 on the uniform grid `exU` with linear data
`exL = 2*t + 1`, evaluated at the interior index 1. -/
theorem linear_exactness_uniform_witness :
    StrictlyIncreasing 3 exU ∧ compute_derivative 3 exU exL 1 = 2 :=
  ⟨exU_mono,
    linear_exactness_uniform 3 exU exL 2 1 (by norm_num) exU_mono exU_uniform
      (fun i _ => rfl) 1 (by norm_num)⟩

/-- Claim C3 fails on the code: on the strictly increasing non-uniform
grid `T = [0,1,3]` with data `D = [0,0,2]`, the right-boundary value
returned is `(D[2]-D[1])/(T[1]-T[0]) = 2`, not the claimed
`(D[2]-D[1])/(T[2]-T[1]) = 1`. -/
theorem right_boundary_local_counterexample :
    StrictlyIncreasing 3 exT ∧
      compute_derivative 3 exT exD 2 ≠ (exD 2 - exD 1) / (exT 2 - exT 1) := by
  refine ⟨exT_mono, ?_⟩
  norm_num [compute_derivative, exT0, exT1, exT2, exD1, exD2]

/-- Claim C3 as amended: for every strictly increasing grid of length
`n ≥ 3`, the right-boundary value is the backward difference
`(D[n-1]-D[n-2])` divided by the GLOBAL spacing `T[1]-T[0]` taken from
the first two grid points, not by the local spacing `T[n-1]-T[n-2]`. -/
theorem right_boundary_global_dt (n : ℕ) (T D : ℕ → ℝ)
    (hn : 3 ≤ n) (hmono : StrictlyIncreasing n T) :
    compute_derivative n T D (n - 1) = (D (n - 1) - D (n - 2)) / (T 1 - T 0) := by
  have h0 : n - 1 ≠ 0 := by omega
  simp [compute_derivative, h0]

/-- Witness for the amended C3 at the concrete grid `exT`, data `exD`. -/
theorem right_boundary_global_dt_witness :
    StrictlyIncreasing 3 exT ∧
      compute_derivative 3 exT exD 2 = (exD 2 - exD 1) / (exT 1 - exT 0) :=
  ⟨exT_mono, right_boundary_global_dt 3 exT exD (by norm_num) exT_mono⟩

/-- Four-quadrant arctangent `np.arctan2(y, x)`, embedded as the argument
of the complex number `x + y*I`; its range is `(-π, π]` and
`atan2 0 0 = 0`, matching numpy on real inputs. -/
noncomputable def atan2 (y x : ℝ) : ℝ := Complex.arg ⟨x, y⟩

/-- One iteration of the wrap-detection branch of the `process_wave_data`
loop: if `|ph - last_phase| ≥ π`, decrement `cycles` when `ph > 0` and
increment it when `ph < 0` (two independent `if`s, as in the source;
neither fires when `ph = 0`). -/
noncomputable def updateCycles (cycles : ℤ) (ph last : ℝ) : ℤ :=
  if |ph - last| ≥ Real.pi then
    let c := if ph > 0 then cycles - 1 else cycles
    if ph < 0 then c + 1 else c
  else cycles

/-- The value of the `cycles` accumulator after the loop iteration that
processes index `i`: `cycles` starts at 0 and `last_phase` starts at
`ph 0` before the loop, and iteration `i` compares `ph i` against
`ph (i-1)` (against `ph 0` itself for `i = 0`). -/
noncomputable def cyclesAt (ph : ℕ → ℝ) : ℕ → ℤ
  | 0 => updateCycles 0 (ph 0) (ph 0)
  | i + 1 => updateCycles (cyclesAt ph i) (ph (i + 1)) (ph i)

/-- The wrapped instantaneous phase array
`phase = np.arctan2(imag, real)`. -/
noncomputable def phase_of (re im : ℕ → ℝ) : ℕ → ℝ :=
  fun i => atan2 (im i) (re i)

/-- The `cum_phase` array built by the loop:
`cum_phase[i] = ph[i] + 2*π*cycles` with the post-update cycle count. -/
noncomputable def cum_phase (re im : ℕ → ℝ) : ℕ → ℝ :=
  fun i => phase_of re im i + 2 * Real.pi * (cyclesAt (phase_of re im) i : ℝ)

/-- The amplitude array `np.sqrt(real**2 + imag**2)`. -/
noncomputable def amplitude_of (re im : ℕ → ℝ) : ℕ → ℝ :=
  fun i => Real.sqrt ((re i) ^ 2 + (im i) ^ 2)

/-- Embedding of `process_wave_data(time, real, imag)`: returns the
4-tuple `(time, cum_phase, amplitude, cum_phase_derivative)` where the
derivative is `compute_derivative(time, cum_phase)`. -/
noncomputable def process_wave_data (n : ℕ) (time re im : ℕ → ℝ) :
    (ℕ → ℝ) × (ℕ → ℝ) × (ℕ → ℝ) × (ℕ → ℝ) :=
  (time, cum_phase re im, amplitude_of re im,
    compute_derivative n time (cum_phase re im))

lemma atan2_mem_Ioc (y x : ℝ) : atan2 y x ∈ Set.Ioc (-Real.pi) Real.pi :=
  Complex.arg_mem_Ioc ⟨x, y⟩

lemma atan2_zero_one : atan2 0 1 = 0 := by
  have h : (⟨1, 0⟩ : ℂ) = 1 := by
    apply Complex.ext <;> simp
  rw [atan2, h, Complex.arg_one]

lemma atan2_zero_neg_one : atan2 0 (-1) = Real.pi := by
  have h : (⟨-1, 0⟩ : ℂ) = -1 := by
    apply Complex.ext <;> simp
  rw [atan2, h, Complex.arg_neg_one]

lemma updateCycles_no_wrap (c : ℤ) (ph last : ℝ) (h : |ph - last| < Real.pi) :
    updateCycles c ph last = c := by
  rw [updateCycles, if_neg (not_le.mpr h)]

lemma cyclesAt_zero (ph : ℕ → ℝ) : cyclesAt ph 0 = 0 := by
  have h : |ph 0 - ph 0| < Real.pi := by
    simpa using Real.pi_pos
  simp [cyclesAt, updateCycles_no_wrap 0 (ph 0) (ph 0) h]

/-- The per-step cycle adjustment, as §4.2 words it: −1 on a wrap landing
on a positive phase, +1 on a wrap landing on a negative phase, 0 when the
landing phase is exactly 0. -/
noncomputable def wrapAdjust (ph : ℝ) : ℤ :=
  if ph > 0 then -1 else if ph < 0 then 1 else 0

/-- The §4.2 cycle counter as a left-fold: starts at 0 (index 0 is
compared against `last_phase = ph 0`, a no-op), and at each later index
adds `wrapAdjust` exactly when `|ph[i] - ph[i-1]| ≥ π`. -/
noncomputable def specCycles (ph : ℕ → ℝ) : ℕ → ℤ
  | 0 => 0
  | i + 1 => specCycles ph i +
      (if |ph (i + 1) - ph i| ≥ Real.pi then wrapAdjust (ph (i + 1)) else 0)

lemma updateCycles_eq_add_adjust (c : ℤ) (ph last : ℝ) :
    updateCycles c ph last =
      c + (if |ph - last| ≥ Real.pi then wrapAdjust ph else 0) := by
  rw [updateCycles, wrapAdjust]
  by_cases hw : |ph - last| ≥ Real.pi
  · rw [if_pos hw, if_pos hw]
    by_cases hp : ph > 0
    · have hn : ¬ ph < 0 := by linarith
      simp [hp, hn, sub_eq_add_neg]
    · by_cases hn : ph < 0
      · simp [hp, hn]
      · simp [hp, hn]
  · rw [if_neg hw, if_neg hw, add_zero]

lemma cyclesAt_eq_specCycles (ph : ℕ → ℝ) : ∀ i, cyclesAt ph i = specCycles ph i := by
  intro i
  induction i with
  | zero => rw [cyclesAt_zero, specCycles]
  | succ j ih =>
      rw [cyclesAt, specCycles, updateCycles_eq_add_adjust, ih]

lemma updateCycles_sub_le (c : ℤ) (ph last : ℝ) :
    |updateCycles c ph last - c| ≤ 1 := by
  rw [updateCycles_eq_add_adjust, add_sub_cancel_left, wrapAdjust]
  split_ifs <;> decide

/-- One unwrapping step moves the cumulative value by at most π in
magnitude, provided both wrapped phases lie in the `atan2` range
`(-π, π]`. -/
lemma jump_abs_le (a b : ℝ) (c : ℤ)
    (ha : a ∈ Set.Ioc (-Real.pi) Real.pi) (hb : b ∈ Set.Ioc (-Real.pi) Real.pi) :
    |(b + 2 * Real.pi * (updateCycles c b a : ℝ)) -
      (a + 2 * Real.pi * (c : ℝ))| ≤ Real.pi := by
  rw [updateCycles_eq_add_adjust]
  by_cases hw : |b - a| ≥ Real.pi
  · rw [if_pos hw, wrapAdjust]
    by_cases hp : b > 0
    · have hd : Real.pi ≤ b - a := by
        rcases le_abs.mp hw with h | h
        · exact h
        · linarith [ha.2]
      rw [if_pos hp]
      have e : b + 2 * Real.pi * ((c + -1 : ℤ) : ℝ) - (a + 2 * Real.pi * (c : ℝ)) =
          b - a - 2 * Real.pi := by
        push_cast
        ring
      rw [e]
      exact abs_le.mpr ⟨by linarith, by linarith [Real.pi_pos, hb.2, ha.1]⟩
    · by_cases hn : b < 0
      · have hd : b - a ≤ -Real.pi := by
          rcases le_abs.mp hw with h | h
          · linarith [ha.1]
          · linarith
        rw [if_neg hp, if_pos hn]
        have e : b + 2 * Real.pi * ((c + 1 : ℤ) : ℝ) - (a + 2 * Real.pi * (c : ℝ)) =
            b - a + 2 * Real.pi := by
          push_cast
          ring
        rw [e]
        exact abs_le.mpr ⟨by linarith [Real.pi_pos, hb.1, ha.2], by linarith⟩
      · rw [if_neg hp, if_neg hn]
        have hb0 : b = 0 := le_antisymm (not_lt.mp hp) (not_lt.mp hn)
        have e : b + 2 * Real.pi * ((c + 0 : ℤ) : ℝ) - (a + 2 * Real.pi * (c : ℝ)) =
            b - a := by
          push_cast
          ring
        rw [e, hb0]
        exact abs_le.mpr ⟨by linarith [ha.2], by linarith [ha.1]⟩
  · rw [if_neg hw]
    have e : b + 2 * Real.pi * ((c + 0 : ℤ) : ℝ) - (a + 2 * Real.pi * (c : ℝ)) =
        b - a := by
      push_cast
      ring
    rw [e]
    exact le_of_lt (not_le.mp hw)

/-- Claim C4: the cumulative phase produced by `process_wave_data` is
exactly the §4.2 sequential left-fold: state `(cycles, last_phase)`
starts at `(0, ph 0)`, a wrap is detected exactly when
`|ph i - last_phase| ≥ π` and then adjusts `cycles` by −1 for positive,
+1 for negative, 0 for exactly-zero landing phase, and
`cum_phase[i] = ph[i] + 2π·cycles` with the post-update count; in
particular `cum_phase[0] = ph[0]`. -/
theorem unwrapper_is_spec_fold (n : ℕ) (time re im : ℕ → ℝ) :
    (process_wave_data n time re im).2.1 0 = phase_of re im 0 ∧
      ∀ i, (process_wave_data n time re im).2.1 i =
        phase_of re im i + 2 * Real.pi * (specCycles (phase_of re im) i : ℝ) := by
  constructor
  · show cum_phase re im 0 = phase_of re im 0
    rw [cum_phase]
    simp [cyclesAt_zero]
  · intro i
    show cum_phase re im i = _
    rw [cum_phase, cyclesAt_eq_specCycles]

/-- Example real part -1, 1, 1, ... whose phase starts at π. -/
noncomputable def exRe : ℕ → ℝ := fun i => if i = 0 then -1 else 1

/-- Example imaginary part identically 0. -/
noncomputable def exIm : ℕ → ℝ := fun _ => 0

/-- Claim C5 fails on the code: with `real = [-1, 1]` and
`imag = [0, 0]`, the wrapped phase goes from π to exactly 0, the wrap
test fires but neither sign branch does, and the adjacent cumulative
values are π and 0 — a jump of magnitude exactly π, not `< π`. -/
theorem adjacent_jump_counterexample :
    ¬ (|(process_wave_data 2 exU exRe exIm).2.1 1 -
        (process_wave_data 2 exU exRe exIm).2.1 0| < Real.pi) := by
  have hph0 : phase_of exRe exIm 0 = Real.pi := by
    simp only [phase_of, exRe, exIm, if_pos rfl]
    exact atan2_zero_neg_one
  have hph1 : phase_of exRe exIm 1 = 0 := by
    simp only [phase_of, exRe, exIm]
    norm_num
    exact atan2_zero_one
  have hc0 : (process_wave_data 2 exU exRe exIm).2.1 0 = Real.pi := by
    show cum_phase exRe exIm 0 = Real.pi
    rw [cum_phase]
    simp [cyclesAt_zero, hph0]
  have hc1 : (process_wave_data 2 exU exRe exIm).2.1 1 = 0 := by
    show cum_phase exRe exIm 1 = 0
    have hk : cyclesAt (phase_of exRe exIm) 1 = 0 := by
      show updateCycles (cyclesAt (phase_of exRe exIm) 0)
        (phase_of exRe exIm 1) (phase_of exRe exIm 0) = 0
      rw [cyclesAt_zero, hph0, hph1, updateCycles_eq_add_adjust]
      have hwa : wrapAdjust 0 = 0 := by norm_num [wrapAdjust]
      rw [hwa]
      split_ifs <;> ring
    rw [cum_phase, hk, hph1]
    ring
  rw [hc0, hc1, zero_sub, abs_neg, abs_of_nonneg Real.pi_pos.le]
  exact lt_irrefl _

/-- Claim C5 as amended: adjacent cumulative-phase values never differ by
MORE than π — `|cum[i+1] - cum[i]| ≤ π` for every input and index — but
a jump of magnitude exactly π can occur (when the landing phase is
exactly 0 or the wrapped-phase difference is exactly π). -/
theorem adjacent_jump_le_pi (n : ℕ) (time re im : ℕ → ℝ) (i : ℕ) :
    |(process_wave_data n time re im).2.1 (i + 1) -
      (process_wave_data n time re im).2.1 i| ≤ Real.pi := by
  show |(phase_of re im (i + 1) +
      2 * Real.pi * (cyclesAt (phase_of re im) (i + 1) : ℝ)) -
    (phase_of re im i + 2 * Real.pi * (cyclesAt (phase_of re im) i : ℝ))| ≤ Real.pi
  have hstep : cyclesAt (phase_of re im) (i + 1) =
      updateCycles (cyclesAt (phase_of re im) i)
        (phase_of re im (i + 1)) (phase_of re im i) := rfl
  rw [hstep]
  exact jump_abs_le _ _ _ (atan2_mem_Ioc _ _) (atan2_mem_Ioc _ _)

/-- Claim C6: when no consecutive wrapped-phase difference reaches π,
the cycle counter stays 0 and the cumulative phase equals the wrapped
phase at every index. -/
theorem no_spurious_wraps (n : ℕ) (time re im : ℕ → ℝ)
    (h : ∀ i, i + 1 < n →
      |phase_of re im (i + 1) - phase_of re im i| < Real.pi) :
    ∀ i, i < n → cyclesAt (phase_of re im) i = 0 ∧
      (process_wave_data n time re im).2.1 i = phase_of re im i := by
  have hcyc : ∀ j, j < n → cyclesAt (phase_of re im) j = 0 := by
    intro j
    induction j with
    | zero => exact fun _ => cyclesAt_zero _
    | succ m ih =>
        intro hj
        have hm := ih (by omega)
        show updateCycles (cyclesAt (phase_of re im) m)
          (phase_of re im (m + 1)) (phase_of re im m) = 0
        rw [hm, updateCycles_no_wrap 0 _ _ (h m (by omega))]
  intro i hi
  refine ⟨hcyc i hi, ?_⟩
  show cum_phase re im i = phase_of re im i
  rw [cum_phase, hcyc i hi]
  push_cast
  ring

/-- Claim C7: for every input, amplitude equals `sqrt(real² + imag²)` at
every index and is always nonnegative; and wherever `real = 3` and
`imag = 4`, the amplitude is 5. -/
theorem amplitude_correct (n : ℕ) (time re im : ℕ → ℝ) (i : ℕ) :
    (∀ j, (process_wave_data n time re im).2.2.1 j =
        Real.sqrt ((re j) ^ 2 + (im j) ^ 2) ∧
      0 ≤ (process_wave_data n time re im).2.2.1 j) ∧
    (re i = 3 → im i = 4 → (process_wave_data n time re im).2.2.1 i = 5) := by
  refine ⟨fun j => ⟨rfl, Real.sqrt_nonneg _⟩, fun h3 h4 => ?_⟩
  show Real.sqrt ((re i) ^ 2 + (im i) ^ 2) = 5
  rw [h3, h4, show (3 : ℝ) ^ 2 + 4 ^ 2 = 5 ^ 2 by norm_num]
  exact Real.sqrt_sq (by norm_num)

/-- Claim C9: at every index the cumulative phase differs from the
wrapped phase by an exact integer multiple of 2π; the integer starts at
0 and moves by at most 1 per step. -/
theorem cycle_counter_structure (n : ℕ) (time re im : ℕ → ℝ) :
    ∃ k : ℕ → ℤ,
      (∀ i, (process_wave_data n time re im).2.1 i - atan2 (im i) (re i) =
        2 * Real.pi * (k i : ℝ)) ∧
      k 0 = 0 ∧ ∀ i, |k (i + 1) - k i| ≤ 1 := by
  refine ⟨cyclesAt (phase_of re im), fun i => ?_, cyclesAt_zero _, fun i => ?_⟩
  · show atan2 (im i) (re i) +
      2 * Real.pi * (cyclesAt (phase_of re im) i : ℝ) - atan2 (im i) (re i) =
      2 * Real.pi * (cyclesAt (phase_of re im) i : ℝ)
    ring
  · show |updateCycles (cyclesAt (phase_of re im) i)
      (phase_of re im (i + 1)) (phase_of re im i) -
        cyclesAt (phase_of re im) i| ≤ 1
    exact updateCycles_sub_le _ _ _

/-- Claim C10: `process_wave_data` is a pure function of its inputs (the
source only reads `time`, `real`, `imag`; it writes only freshly created
arrays), and the first component of the returned 4-tuple is the input
time sequence itself, element for element. -/
theorem inputs_passed_through (n : ℕ) (time re im : ℕ → ℝ) :
    (process_wave_data n time re im).1 = time ∧
      ∀ i, (process_wave_data n time re im).1 i = time i :=
  ⟨rfl, fun _ => rfl⟩

/-- Execution model of `compute_derivative` on finite arrays, with the
numpy index errors made explicit as `none`: `time[1]` raises unless
`time` has at least 2 entries, and `data[1]`, `data[-2]` raise unless
`data` has at least 2 entries.  No length comparison between `time` and
`data` is ever made by the source, so none appears here. -/
noncomputable def compute_derivative_run (time data : List ℝ) : Option (List ℝ) :=
  if time.length < 2 ∨ data.length < 2 then none
  else some (List.ofFn fun i : Fin data.length =>
    compute_derivative data.length
      (fun j => time.getD j 0) (fun j => data.getD j 0) i)

/-- Claim C8 fails on the code: the derivative engine run on a 4-point
time grid and a 2-point data sequence — misaligned lengths — returns a
result instead of failing. -/
theorem misaligned_no_failure :
    ([0, 1, 2, 3] : List ℝ).length ≠ ([0, 1] : List ℝ).length ∧
      (compute_derivative_run [0, 1, 2, 3] [0, 1]).isSome = true := by
  constructor
  · simp
  · rw [compute_derivative_run, if_neg (by simp)]
    rfl

/-- Claim C8 as amended: the derivative engine surfaces an error if and
only if an index access is out of bounds — `time` or `data` shorter
than 2; unequal `time`/`data` lengths alone are never detected, and the
call returns a normal result computed from `time[0]`, `time[1]` and the
data sequence. -/
theorem derivative_failure_iff (time data : List ℝ) :
    compute_derivative_run time data = none ↔
      time.length < 2 ∨ data.length < 2 := by
  rw [compute_derivative_run]
  split_ifs with h
  · simp [h]
  · simp [h]

/-- Example real part identically 1, a constant zero-phase signal. -/
noncomputable def oneRe : ℕ → ℝ := fun _ => 1

lemma oneRe_phase (j : ℕ) : phase_of oneRe exIm j = 0 := by
  simp only [phase_of, oneRe, exIm]
  exact atan2_zero_one

/-- Witness for C6: the constant signal `real = 1, imag = 0` has all
wrapped-phase differences 0, so the cycle counter stays 0 and the
cumulative phase equals the wrapped phase at index 1. -/
theorem no_spurious_wraps_witness :
    cyclesAt (phase_of oneRe exIm) 1 = 0 ∧
      (process_wave_data 2 exU oneRe exIm).2.1 1 = phase_of oneRe exIm 1 :=
  no_spurious_wraps 2 exU oneRe exIm
    (fun i _ => by
      rw [oneRe_phase, oneRe_phase]
      simpa using Real.pi_pos) 1 (by norm_num)

/-- Example real part identically 3. -/
noncomputable def threeRe : ℕ → ℝ := fun _ => 3

/-- Example imaginary part identically 4. -/
noncomputable def fourIm : ℕ → ℝ := fun _ => 4

/-- Witness for C7: on the constant 3 + 4i signal, the amplitude array
is pointwise `sqrt(real² + imag²)`, nonnegative, and equals 5 at
index 0. -/
theorem amplitude_correct_witness :
    (∀ j, (process_wave_data 2 exU threeRe fourIm).2.2.1 j =
        Real.sqrt ((threeRe j) ^ 2 + (fourIm j) ^ 2) ∧
      0 ≤ (process_wave_data 2 exU threeRe fourIm).2.2.1 j) ∧
    (process_wave_data 2 exU threeRe fourIm).2.2.1 0 = 5 :=
  ⟨(amplitude_correct 2 exU threeRe fourIm 0).1,
    (amplitude_correct 2 exU threeRe fourIm 0).2 rfl rfl⟩

end PhaseAmpOmega
